import Mathlib

/-!
Shallow embedding of `src/auth/qhmac.rs` (crate `sarkara`): the nonce-variant
HMAC construction `H(nonce, (K xor opad) || H(nonce, (K xor ipad) || text))`.

Bytes are modelled as `Nat` (XOR of values below 256 stays below 256, so no
masking is needed).  A hash instance of the generic parameter `H` is modelled
by its observable configuration state (the key/nonce bound via `with_key` and
the requested output size bound via `with_size`); the hash computation itself
is an abstract deterministic function from that state and an input byte
sequence to a digest byte sequence, exactly the capability the Rust trait
bound `H : Hash` / `H : GenericHash` provides.

A Rust slice-indexing panic (the `ipad[i]` / `opad[i]` accesses in `result`)
is modelled by `Option`: `none` is a panicking call.
-/

/-- Configuration state of one underlying hash instance: the key (nonce) set
by `with_key` and the requested digest length set by `with_size`.  A freshly
`default()`-constructed instance has no key and the natural output length. -/
structure HashInst where
  key : List Nat
  size : Option Nat
deriving DecidableEq, Repr

/-- `H::default()`: fresh instance, no key, natural output length. -/
def HashInst.init : HashInst := { key := [], size := none }

/-- `with_key` on the underlying hash instance: binds the key/nonce. -/
def HashInst.with_key (s : HashInst) (k : List Nat) : HashInst :=
  { s with key := k }

/-- `with_size` on the underlying hash instance: binds the output length. -/
def HashInst.with_size (s : HashInst) (n : Nat) : HashInst :=
  { s with size := some n }

/-- The struct `HMAC<H> { ih: H, oh: H }`. -/
structure HMAC where
  ih : HashInst
  oh : HashInst
deriving DecidableEq, Repr

/-- `HMAC::new()` / `Default::default()`: both hash instances default. -/
def HMAC.new : HMAC := { ih := HashInst.init, oh := HashInst.init }

/-- `HMAC::with_nonce`: `self.ih.with_key(nonce); self.oh.with_key(nonce); self`. -/
def HMAC.with_nonce (m : HMAC) (nonce : List Nat) : HMAC :=
  { m with ih := m.ih.with_key nonce, oh := m.oh.with_key nonce }

/-- `HMAC::with_size`: `self.oh.with_size(len); self` (the inner instance is
not touched). -/
def HMAC.with_size (m : HMAC) (len : Nat) : HMAC :=
  { m with oh := m.oh.with_size len }

/-- The loop `for i in 0..key.len() { pad[i] ^= key[i] }` of `HMAC::result`,
XORing the key bytes into the front of `pad`.  Indexing `pad[i]` with
`i ≥ pad.len()` panics in Rust; that is the `none` case. -/
def xorInto : List Nat → List Nat → Option (List Nat)
  | pad, [] => some pad
  | [], _ :: _ => none
  | p :: ps, k :: ks => (xorInto ps ks).map (fun r => (p ^^^ k) :: r)

/-- `HMAC::result(key, data)`.  `hf s b` is the digest the underlying hash
instance with configuration `s` produces on input `b` (the abstract,
deterministic `Hash::hash`).  `none` models a panic of the XOR loop. -/
def HMAC.result (hf : HashInst → List Nat → List Nat) (m : HMAC)
    (key data : List Nat) : Option (List Nat) :=
  match xorInto (List.replicate 64 0x36) key,
        xorInto (List.replicate 64 0x5c) key with
  | some ipad, some opad =>
      some (hf m.oh (opad ++ hf m.ih (ipad ++ data)))
  | _, _ => none

/-- `HMAC::verify(key, data, tag)`: `self.result(key, data) == tag[..]`.
Propagates a panic of `result`; otherwise returns the boolean comparison. -/
def HMAC.verify (hf : HashInst → List Nat → List Nat) (m : HMAC)
    (key data tag : List Nat) : Option Bool :=
  (m.result hf key data).map (fun d => decide (d = tag))

/-- Modelled from the spec: the 64-byte padding buffer filled with `fill`,
with `key[i]` XORed into position `i` for each `i` below `key.len()` (spec
§4.1 step 1–2 of `result`). -/
def specPad (fill : Nat) (key : List Nat) : List Nat :=
  (List.range 64).map (fun i => if i < key.length then fill ^^^ key.getD i 0 else fill)

/-- Modelled from the spec: the nested construction of §4.1 —
`outer.hash((K⊕opad) ‖ inner.hash((K⊕ipad) ‖ data))`. -/
def resultSpec (hf : HashInst → List Nat → List Nat) (m : HMAC)
    (key data : List Nat) : List Nat :=
  hf m.oh (specPad 0x5c key ++ hf m.ih (specPad 0x36 key ++ data))

/-- A concrete executable hash stand-in, used by the witnesses. -/
def hfEx (s : HashInst) (input : List Nat) : List Nat :=
  [(s.key.foldl (fun a b => 2 * a + b) 1
      + input.foldl (fun a b => 3 * a + b) 5
      + s.size.getD 0) % 256]

/-- One call through the public configuration API. -/
inductive ConfigOp where
  | nonce (n : List Nat)
  | resize (l : Nat)
deriving DecidableEq, Repr

/-- Apply one configuration call to an `HMAC` instance. -/
def applyOp (m : HMAC) : ConfigOp → HMAC
  | ConfigOp.nonce n => m.with_nonce n
  | ConfigOp.resize l => m.with_size l

/-- Apply a sequence of configuration calls, oldest first. -/
def applyOps (m : HMAC) (ops : List ConfigOp) : HMAC :=
  ops.foldl applyOp m

example : xorInto (List.replicate 4 1) [3, 5] = some [2, 4, 1, 1] := by decide

example : (HMAC.new.result hfEx (List.replicate 65 0) []).isNone := by decide

example : (HMAC.new.result hfEx [1, 2] [7]).isSome := by decide

theorem xorInto_nil (pad : List Nat) : xorInto pad [] = some pad := by
  cases pad <;> rfl

theorem xorInto_replicate (fill : Nat) (key : List Nat) :
    ∀ (n : Nat), key.length ≤ n →
      xorInto (List.replicate n fill) key =
        some ((List.range n).map
          (fun i => if i < key.length then fill ^^^ key.getD i 0 else fill)) := by
  induction key with
  | nil =>
      intro n _
      have h1 : ((List.range n).map
          (fun i => if i < ([] : List Nat).length then fill ^^^ ([] : List Nat).getD i 0 else fill))
          = List.replicate n fill := by
        simp [List.eq_replicate_iff]
      rw [h1, xorInto_nil]
  | cons k ks ih =>
      intro n h
      match n with
      | 0 => simp at h
      | m + 1 =>
        have hm : ks.length ≤ m := by simpa using h
        rw [List.replicate_succ]
        have harm : xorInto (fill :: List.replicate m fill) (k :: ks)
            = (xorInto (List.replicate m fill) ks).map (fun r => (fill ^^^ k) :: r) := rfl
        rw [harm, ih m hm, Option.map_some', List.range_succ_eq_map, List.map_cons,
          List.map_map]
        refine congrArg some (List.cons_eq_cons.mpr ⟨?_, ?_⟩)
        · simp
        · refine (List.map_congr_left ?_).symm
          intro i _
          simp [Nat.succ_lt_succ_iff]

/-- For a key within the 64-byte bound the XOR loop does not panic and
`result` computes exactly the spec's nested construction. -/
theorem result_of_le (hf : HashInst → List Nat → List Nat) (m : HMAC)
    (key data : List Nat) (h : key.length ≤ 64) :
    m.result hf key data = some (resultSpec hf m key data) := by
  unfold HMAC.result
  rw [xorInto_replicate 0x36 key 64 h, xorInto_replicate 0x5c key 64 h]
  rfl

theorem specPad_append_zero (fill : Nat) (key : List Nat) (h : key.length < 64) :
    specPad fill key = specPad fill (key ++ List.replicate (64 - key.length) 0) := by
  unfold specPad
  apply List.map_congr_left
  intro i hi
  rw [List.mem_range] at hi
  have hlen : (key ++ List.replicate (64 - key.length) 0).length = 64 := by
    simp; omega
  by_cases hk : i < key.length
  · rw [if_pos hk, if_pos (by rw [hlen]; exact hi), List.getD_append _ _ _ _ hk]
  · rw [if_neg hk, if_pos (by rw [hlen]; exact hi),
      List.getD_append_right _ _ _ _ (Nat.le_of_not_lt hk),
      List.getD_eq_getElem?_getD, List.getElem?_getD_replicate_default_eq, Nat.xor_zero]

/-- C1: for every key of length at most 64 and every data, `HMAC::result`
returns (without panicking) exactly the spec's nested construction: ipad/opad
filled with 0x36/0x5c, key bytes XORed in below `key.len()`, data appended to
ipad, the inner digest appended to opad, and the outer hash of the result. -/
theorem hmac_result_nested (hf : HashInst → List Nat → List Nat) (m : HMAC)
    (key data : List Nat) (h : key.length ≤ 64) :
    m.result hf key data =
      some (hf m.oh (specPad 0x5c key ++ hf m.ih (specPad 0x36 key ++ data))) :=
  result_of_le hf m key data h

theorem hmac_result_nested_witness :
    ([5, 6, 7] : List Nat).length ≤ 64 ∧
      HMAC.new.result hfEx [5, 6, 7] [1, 2] =
        some (hfEx HMAC.new.oh
          (specPad 0x5c [5, 6, 7] ++ hfEx HMAC.new.ih (specPad 0x36 [5, 6, 7] ++ [1, 2]))) :=
  ⟨by decide, hmac_result_nested hfEx HMAC.new [5, 6, 7] [1, 2] (by decide)⟩

/-- C2: for every key of length at most 64, `verify(key, data, tag)` returns
`true` iff `result(key, data)` equals `tag` byte-for-byte, and a mismatch
yields the normal return value `false` — never a panic. -/
theorem hmac_verify_eq_iff (hf : HashInst → List Nat → List Nat) (m : HMAC)
    (key data tag : List Nat) (h : key.length ≤ 64) :
    (m.verify hf key data tag = some true ↔ m.result hf key data = some tag) ∧
    (m.result hf key data ≠ some tag → m.verify hf key data tag = some false) := by
  have hr := result_of_le hf m key data h
  refine ⟨?_, ?_⟩
  · rw [HMAC.verify, hr]
    simp
  · intro hne
    have hd : resultSpec hf m key data ≠ tag := fun hEq => hne (by rw [hr, hEq])
    rw [HMAC.verify, hr]
    simp [hd]

theorem hmac_verify_eq_iff_witness :
    ([9] : List Nat).length ≤ 64 ∧
      ((HMAC.new.verify hfEx [9] [2] [0] = some true ↔
          HMAC.new.result hfEx [9] [2] = some [0]) ∧
        (HMAC.new.result hfEx [9] [2] ≠ some [0] →
          HMAC.new.verify hfEx [9] [2] [0] = some false)) :=
  ⟨by decide, hmac_verify_eq_iff hfEx HMAC.new [9] [2] [0] (by decide)⟩

/-- C3: round trip — for every key of length at most 64 and every data, on any
configured instance, verifying the tag that `result` produced succeeds. -/
theorem hmac_verify_roundtrip (hf : HashInst → List Nat → List Nat) (m : HMAC)
    (key data : List Nat) (h : key.length ≤ 64) :
    ∃ tag, m.result hf key data = some tag ∧ m.verify hf key data tag = some true := by
  refine ⟨resultSpec hf m key data, result_of_le hf m key data h, ?_⟩
  rw [HMAC.verify, result_of_le hf m key data h]
  simp

theorem hmac_verify_roundtrip_witness :
    ([3, 1] : List Nat).length ≤ 64 ∧
      ∃ tag, HMAC.new.result hfEx [3, 1] [8] = some tag ∧
        HMAC.new.verify hfEx [3, 1] [8] tag = some true :=
  ⟨by decide, hmac_verify_roundtrip hfEx HMAC.new [3, 1] [8] (by decide)⟩

/-- C4 (counterexample): a size request made through `with_size` is NOT
applied to both hash instances — after `HMAC::new().with_size(16)` the inner
and outer configurations differ, refuting "the two instances always carry
identical configuration". -/
theorem hmac_lockstep_counterexample :
    (HMAC.new.with_size 16).ih ≠ (HMAC.new.with_size 16).oh := by decide

/-- C4 (amended): every nonce request made through `with_nonce` is applied to
both hash instances, so under any sequence of public configuration calls the
two instances always carry identical nonce (key) configuration; size requests
touch only the outer instance. -/
theorem hmac_nonce_lockstep :
    (∀ (m : HMAC) (n : List Nat),
        (m.with_nonce n).ih.key = n ∧ (m.with_nonce n).oh.key = n) ∧
    (∀ ops : List ConfigOp,
        (applyOps HMAC.new ops).ih.key = (applyOps HMAC.new ops).oh.key) := by
  refine ⟨fun m n => ⟨rfl, rfl⟩, ?_⟩
  have inv : ∀ (ops : List ConfigOp) (m : HMAC), m.ih.key = m.oh.key →
      (applyOps m ops).ih.key = (applyOps m ops).oh.key := by
    intro ops
    induction ops with
    | nil => intro m h; exact h
    | cons op rest ih2 =>
        intro m h
        have hstep : applyOps m (op :: rest) = applyOps (applyOp m op) rest := rfl
        rw [hstep]
        apply ih2
        cases op <;>
          simp [applyOp, HMAC.with_nonce, HMAC.with_size, HashInst.with_key,
            HashInst.with_size, h]
  exact fun ops => inv ops HMAC.new rfl

/-- C5: `with_size(len)` sets the requested output length on the outer hash
instance only, leaves the inner instance entirely unchanged, and returns the
(updated) instance itself for chaining. -/
theorem hmac_with_size_frame (m : HMAC) (len : Nat) :
    (m.with_size len).ih = m.ih ∧
    (m.with_size len).oh = { key := m.oh.key, size := some len } :=
  ⟨rfl, rfl⟩

/-- C6: `with_nonce(nonce)` applies the nonce as the perturbing key to both
the inner and the outer hash instance and changes nothing else (both size
configurations are preserved), returning the instance for chaining. -/
theorem hmac_with_nonce_applies_both (m : HMAC) (nonce : List Nat) :
    (m.with_nonce nonce).ih.key = nonce ∧ (m.with_nonce nonce).oh.key = nonce ∧
    (m.with_nonce nonce).ih.size = m.ih.size ∧ (m.with_nonce nonce).oh.size = m.oh.size :=
  ⟨rfl, rfl, rfl, rfl⟩

/-- C7: zero-padding equivalence — a key shorter than 64 bytes produces the
same tag as that key extended with zero bytes to length 64; a key of length
exactly 64 is processed in full, every one of its 64 bytes entering the XOR
pads without truncation or compression. -/
theorem hmac_key_padding (hf : HashInst → List Nat → List Nat) (m : HMAC)
    (key data : List Nat) :
    (key.length < 64 →
      m.result hf key data =
        m.result hf (key ++ List.replicate (64 - key.length) 0) data) ∧
    (key.length = 64 →
      m.result hf key data =
        some (hf m.oh ((List.range 64).map (fun i => 0x5c ^^^ key.getD i 0) ++
          hf m.ih ((List.range 64).map (fun i => 0x36 ^^^ key.getD i 0) ++ data)))) := by
  refine ⟨?_, ?_⟩
  · intro h
    have hlen : (key ++ List.replicate (64 - key.length) 0).length ≤ 64 := by
      simp; omega
    rw [result_of_le hf m key data (Nat.le_of_lt h),
      result_of_le hf m _ data hlen]
    unfold resultSpec
    rw [specPad_append_zero 0x5c key h, specPad_append_zero 0x36 key h]
  · intro h
    rw [result_of_le hf m key data (Nat.le_of_eq h)]
    unfold resultSpec specPad
    have hmap : ∀ fill : Nat,
        ((List.range 64).map
          (fun i => if i < key.length then fill ^^^ key.getD i 0 else fill)) =
          ((List.range 64).map (fun i => fill ^^^ key.getD i 0)) := by
      intro fill
      apply List.map_congr_left
      intro i hi
      rw [List.mem_range] at hi
      rw [if_pos (by omega)]
    rw [hmap, hmap]

theorem hmac_key_padding_witness :
    ([2, 4] : List Nat).length < 64 ∧
      HMAC.new.result hfEx [2, 4] [6] =
        HMAC.new.result hfEx ([2, 4] ++ List.replicate (64 - ([2, 4] : List Nat).length) 0) [6] :=
  ⟨by decide, (hmac_key_padding hfEx HMAC.new [2, 4] [6]).1 (by decide)⟩

/-- C8: determinism — on instances whose inner and outer hash configurations
agree, `result` with the same (deterministic) hash capability, key and data
returns the same digest. -/
theorem hmac_result_deterministic (hf : HashInst → List Nat → List Nat)
    (m1 m2 : HMAC) (key data : List Nat)
    (h1 : m1.ih = m2.ih) (h2 : m1.oh = m2.oh) :
    m1.result hf key data = m2.result hf key data := by
  unfold HMAC.result
  rw [h1, h2]

theorem hmac_result_deterministic_witness :
    (HMAC.new.with_size 8).ih = (HMAC.new.with_size 8).ih ∧
      (HMAC.new.with_size 8).result hfEx [7] [3] =
        (HMAC.new.with_size 8).result hfEx [7] [3] :=
  ⟨rfl, hmac_result_deterministic hfEx (HMAC.new.with_size 8) (HMAC.new.with_size 8)
    [7] [3] rfl rfl⟩

/-- C9: for every key of length at most 64 the XOR-loop indexing into the two
64-byte pads stays in bounds and `result` returns a digest (never panics),
while a 65-byte key drives the indexing out of bounds: the call panics
(returns `none`) instead of silently truncating the key. -/
theorem hmac_result_index_bounds (hf : HashInst → List Nat → List Nat)
    (m : HMAC) (data : List Nat) :
    (∀ key : List Nat, key.length ≤ 64 → (m.result hf key data).isSome = true) ∧
    m.result hf (List.replicate 65 0) data = none := by
  refine ⟨?_, ?_⟩
  · intro key h
    rw [result_of_le hf m key data h]
    rfl
  · have hx : xorInto (List.replicate 64 0x36) (List.replicate 65 0) = none := by decide
    have hy : xorInto (List.replicate 64 0x5c) (List.replicate 65 0) = none := by decide
    unfold HMAC.result
    rw [hx, hy]

theorem hmac_result_index_bounds_witness :
    ([1, 2, 3] : List Nat).length ≤ 64 ∧
      (HMAC.new.result hfEx [1, 2, 3] [4]).isSome = true :=
  ⟨by decide, (hmac_result_index_bounds hfEx HMAC.new [4]).1 [1, 2, 3] (by decide)⟩
